import Mathlib

/-!
Verification development for the bibliographic metadata extractor of the
paper-agent repository (`src/agent/pdf_metadata.py`).

The Python code is shallowly embedded: strings are `List Char`, each regular
expression of the source is translated into an executable matcher whose
deterministic behaviour is derived from the backtracking semantics of the
original pattern, and the `try/except` of `extract_metadata` becomes an
`Except` value.  Every definition mirrors one function or one regex of the
source file; doc comments name the Python symbol being translated.

Python's string predicates (`\s`, `\d`, `.strip()`, `.lower()`, `.isupper()`)
act on Unicode; the embedding models their ASCII behaviour, which is exact for
every character class the source's regexes use and for all inputs considered
in the theorems.
-/

set_option maxRecDepth 20000

namespace PdfMeta

/-- Shorthand: the `List Char` representation of a string literal. -/
def str (s : String) : List Char := s.data

/-- ASCII `[A-Z]` (the class used by the source's regexes). -/
def isUpperA (c : Char) : Bool := 'A' ≤ c && c ≤ 'Z'

/-- ASCII `[a-z]`. -/
def isLowerA (c : Char) : Bool := 'a' ≤ c && c ≤ 'z'

/-- ASCII `[0-9]`, the `\d` class. -/
def isDigitA (c : Char) : Bool := '0' ≤ c && c ≤ '9'

/-- ASCII letter. -/
def isAlphaA (c : Char) : Bool := isUpperA c || isLowerA c

/-- The `\w` class `[A-Za-z0-9_]`. -/
def isWordA (c : Char) : Bool := isAlphaA c || isDigitA c || c = '_'

/-- The `\s` class (ASCII part): space, tab, newline, carriage return,
vertical tab, form feed. -/
def pyWs (c : Char) : Bool :=
  c = ' ' || c = '\t' || c = '\n' || c = '\r' || c = '\x0b' || c = '\x0c'

/-- Python `str.strip()`: drop leading and trailing whitespace. -/
def pyStrip (s : List Char) : List Char :=
  ((s.dropWhile pyWs).reverse.dropWhile pyWs).reverse

/-- Python `str.lower()` (ASCII part). -/
def toLowerL (s : List Char) : List Char := s.map Char.toLower

/-- Python `str.startswith`: `startsWithL p s` is true when `p` is an initial
segment of `s`. -/
def startsWithL : List Char → List Char → Bool
  | [], _ => true
  | _ :: _, [] => false
  | p :: ps, c :: cs => p = c && startsWithL ps cs

/-- Python `needle in haystack` substring test. -/
def containsL (needle : List Char) : List Char → Bool
  | [] => startsWithL needle []
  | s@(_ :: rest) => startsWithL needle s || containsL needle rest

/-- Concatenation of the images of `f`, in order. -/
def flatMapL (f : α → List β) : List α → List β
  | [] => []
  | a :: as => f a ++ flatMapL f as

/-- Drop the maximal trailing run of characters satisfying `p`; translation of
`re.sub(r'[class]+$', '', s)` (the inputs it is applied to never contain a
newline, so the `$`-before-final-newline case of Python cannot arise). -/
def dropTrailing (p : Char → Bool) (s : List Char) : List Char :=
  (s.reverse.dropWhile p).reverse

/-! ### `_parse_authors` -/

/-- Length of a delimiter match of `re.split(r'[;,]|\sand\s|\s&\s|\n', ...)`
at the head of the list, trying the alternatives in the regex's order;
`none` when no delimiter starts here. -/
def delimLen : List Char → Option Nat
  | [] => none
  | c :: rest =>
    if c = ';' || c = ',' then some 1
    else if pyWs c then
      match rest with
      | 'a' :: 'n' :: 'd' :: w :: _ =>
        if pyWs w then some 5 else if c = '\n' then some 1 else none
      | '&' :: w :: _ =>
        if pyWs w then some 3 else if c = '\n' then some 1 else none
      | _ => if c = '\n' then some 1 else none
    else none

/-- The scan of `re.split`: cut the string at every delimiter match, keeping
empty pieces, as Python does.  The `Nat` argument is fuel, always called with
the length of the string; every delimiter consumes at least one character, so
the fuel never runs out. -/
def pySplitF : Nat → List Char → List Char → List (List Char)
  | _, [], cur => [cur.reverse]
  | 0, _, cur => [cur.reverse]
  | fuel + 1, s, cur =>
    match s, delimLen s with
    | _ :: rest, some (n + 1) => cur.reverse :: pySplitF fuel (rest.drop n) []
    | c :: rest, _ => pySplitF fuel rest (c :: cur)
    | [], _ => [cur.reverse]

/-- Match length at the head of the list of `\s*\([^)]*@[^)]*\)` (parenthesised
email): optional whitespace, `(`, a parenthesis-free run containing `@`, `)`.
The two greedy `[^)]*` runs force the match to end at the first `)` after the
`(`, and backtracking succeeds exactly when that run contains an `@`. -/
def parenEmailLen (s : List Char) : Option Nat :=
  let wsn := (s.takeWhile pyWs).length
  match s.drop wsn with
  | '(' :: rest =>
    let content := rest.takeWhile (fun c => c ≠ ')')
    if content.contains '@' then
      match rest.drop content.length with
      | ')' :: _ => some (wsn + 1 + content.length + 1)
      | _ => none
    else none
  | _ => none

/-- Match length at the head of the list of `\s*[\[\(][^\]\)]*[\]\)]`
(bracketed affiliation). -/
def bracketLen (s : List Char) : Option Nat :=
  let wsn := (s.takeWhile pyWs).length
  match s.drop wsn with
  | b :: rest =>
    if b = '[' || b = '(' then
      let content := rest.takeWhile (fun c => c ≠ ']' && c ≠ ')')
      match rest.drop content.length with
      | e :: _ => if e = ']' || e = ')' then some (wsn + 1 + content.length + 1) else none
      | [] => none
    else none
  | [] => none

/-- `re.sub(pat, '', s)` for a pattern whose match length at a position is
decided by `m`: delete every non-overlapping match, scanning left to right.
Fuel is the length of the string; the patterns used here always consume at
least one character, so the fuel never runs out (a `some 0` answer is treated
as no match). -/
def subAllF (m : List Char → Option Nat) : Nat → List Char → List Char
  | _, [] => []
  | 0, s => s
  | fuel + 1, c :: rest =>
    match m (c :: rest) with
    | some (n + 1) => subAllF m fuel (rest.drop n)
    | _ => c :: subAllF m fuel rest

/-- Entry point for `subAllF`. -/
def subAll (m : List Char → Option Nat) (s : List Char) : List Char :=
  subAllF m s.length s

/-- The superscript digits listed in the source's trailing-marker classes. -/
def superscripts : List Char := ['¹', '²', '³', '⁴', '⁵', '⁶', '⁷', '⁸', '⁹', '⁰']

/-- The class `[\d\*†‡§¹²³⁴⁵⁶⁷⁸⁹⁰,]` of `_parse_authors`. -/
def footnoteComma (c : Char) : Bool :=
  isDigitA c || c = '*' || c = '†' || c = '‡' || c = '§' || superscripts.contains c || c = ','

/-- The class `[\d\*†‡§¹²³⁴⁵⁶⁷⁸⁹⁰]` of the text-path cleanup. -/
def footnoteNoComma (c : Char) : Bool :=
  isDigitA c || c = '*' || c = '†' || c = '‡' || c = '§' || superscripts.contains c

/-- The per-token cleaning of `_parse_authors`: strip, remove parenthesised
email addresses, remove bracketed affiliations, strip trailing digits,
footnote symbols and commas, strip again. -/
def cleanToken (t : List Char) : List Char :=
  let a0 := pyStrip t
  let a1 := subAll parenEmailLen a0
  let a2 := subAll bracketLen a1
  pyStrip (dropTrailing footnoteComma a2)

/-- `PDFMetadataExtractor._parse_authors`. -/
def parseAuthors (authorStr : List Char) : List (List Char) :=
  if authorStr.isEmpty then []
  else flatMapL (fun t =>
    let a := cleanToken t
    if !a.isEmpty && 2 < a.length then [a] else [])
    (pySplitF authorStr.length authorStr [])

/-! ### `_extract_year` and `_extract_year_from_text` -/

/-- Numeric value of an ASCII digit. -/
def digitVal (c : Char) : Nat := c.toNat - '0'.toNat

/-- Numeric value of four ASCII digits. -/
def fourDigitVal (a b c d : Char) : Nat :=
  ((digitVal a * 10 + digitVal b) * 10 + digitVal c) * 10 + digitVal d

/-- `re.search(r'(\d{4})', s)`: value of the leftmost run of four digits. -/
def findFourDigits : List Char → Option Nat
  | a :: b :: c :: d :: rest =>
    if isDigitA a && isDigitA b && isDigitA c && isDigitA d then
      some (fourDigitVal a b c d)
    else findFourDigits (b :: c :: d :: rest)
  | _ => none

/-- `PDFMetadataExtractor._extract_year`. -/
def extractYear (dateStr : List Char) : Option Nat :=
  if dateStr.isEmpty then none
  else match findFourDigits dateStr with
    | some y => if 1900 ≤ y && y ≤ 2100 then some y else none
    | none => none

/-- The scan of `re.findall(r'\b(19\d{2}|20\d{2})\b', t)`: values of every
non-overlapping word-bounded match, left to right; `prev` is the character
before the current position (`none` at the start of the string). -/
def findallYearsGo : Option Char → List Char → List Nat
  | prev, a :: b :: c :: d :: rest =>
    if (match prev with | some p => !isWordA p | none => true) &&
       ((a = '1' && b = '9') || (a = '2' && b = '0')) && isDigitA c && isDigitA d &&
       (match rest with | e :: _ => !isWordA e | [] => true) then
      fourDigitVal a b c d :: findallYearsGo (some d) rest
    else findallYearsGo (some a) (b :: c :: d :: rest)
  | _, _ => []

/-- Python `max` of a list, `none` on the empty list. -/
def pyMax : List Nat → Option Nat
  | [] => none
  | x :: xs => some (xs.foldl Nat.max x)

/-- `PDFMetadataExtractor._extract_year_from_text`. -/
def extractYearFromText (text : List Char) : Option Nat :=
  if text.isEmpty then none
  else
    let ms := findallYearsGo none (text.take 1000)
    if ms.isEmpty then none
    else
      let years := ms.filter (fun y => 1900 ≤ y && y ≤ 2100)
      if years.isEmpty then none else pyMax years

/-! ### `_extract_title_from_text` -/

/-- Python `str.isupper()` (ASCII model): at least one cased character and no
lowercase one. -/
def pyIsUpper (s : List Char) : Bool :=
  s.any (fun c => isUpperA c || isLowerA c) && s.all (fun c => !isLowerA c)

/-- Python `text.split('\n')`. -/
def splitLines (text : List Char) : List (List Char) := text.splitOn '\n'

/-- The scan of `_extract_title_from_text`: first stripped line longer than
ten characters and not all uppercase. -/
def firstGoodLine : List (List Char) → Option (List Char)
  | [] => none
  | l :: rest =>
    let line := pyStrip l
    if 10 < line.length && !pyIsUpper line then some line else firstGoodLine rest

/-- `PDFMetadataExtractor._extract_title_from_text` (only the first ten lines
are examined). -/
def extractTitleFromText (text : List Char) : Option (List Char) :=
  if text.isEmpty then none
  else firstGoodLine ((splitLines text).take 10)

/-! ### `_extract_authors_from_text`: the four surface patterns -/

/-- Every ASCII uppercase letter is immediately followed by an ASCII lowercase
letter. -/
def uppersFollowed : List Char → Bool
  | [] => true
  | [c] => !isUpperA c
  | a :: b :: rest => (!isUpperA a || isLowerA b) && uppersFollowed (b :: rest)

/-- Full match of `^([A-Z][a-z]+){2,6}$`.  Each group is one uppercase letter
followed by lowercase letters, so the grouping of a matching string is forced:
the string matches exactly when it consists of ASCII letters, starts
uppercase, every uppercase letter is followed by a lowercase one, and the
number of uppercase letters (= the number of groups) is between 2 and 6. -/
def camelMatch (s : List Char) : Bool :=
  (match s with | c :: _ => isUpperA c | [] => false) &&
  s.all isAlphaA && uppersFollowed s &&
  decide (2 ≤ (s.filter isUpperA).length) && decide ((s.filter isUpperA).length ≤ 6)

/-- Count of the forced repetitions of `\s*[A-Z][a-z]+` (`wsRequired = false`)
or `\s+[A-Z][a-z]+` (`wsRequired = true`), requiring the whole string to be
consumed; `none` when the string is not such a concatenation.  Fuel is the
length of the string; each repetition consumes at least one character. -/
def nameRepsF (wsRequired : Bool) : Nat → List Char → Option Nat
  | _, [] => some 0
  | 0, _ => none
  | fuel + 1, s =>
    let wsn := (s.takeWhile pyWs).length
    if wsRequired ∧ wsn = 0 then none
    else match s.drop wsn with
      | u :: rest =>
        if isUpperA u then
          let lows := rest.takeWhile isLowerA
          if lows.isEmpty then none
          else (nameRepsF wsRequired fuel (rest.drop lows.length)).map (· + 1)
        else none
      | [] => none

/-- Full match of `^[A-Z]\.(?:\s*[A-Z][a-z]+){1,3}$`. -/
def initialDotMatch (s : List Char) : Bool :=
  match s with
  | u :: '.' :: rest =>
    isUpperA u &&
    (match nameRepsF false rest.length rest with
     | some k => decide (1 ≤ k) && decide (k ≤ 3)
     | none => false)
  | _ => false

/-- Full match of `^[A-Z][a-z]+(\s+[A-Z][a-z]+){1,4}$`. -/
def spacedNameMatch (s : List Char) : Bool :=
  match s with
  | u :: rest =>
    isUpperA u &&
    (let lows := rest.takeWhile isLowerA
     !lows.isEmpty &&
     (match nameRepsF true (rest.drop lows.length).length (rest.drop lows.length) with
      | some k => decide (1 ≤ k) && decide (k ≤ 4)
      | none => false))
  | [] => false

/-- The honorific forms of `(?:Mrs?\.?|Dr\.?|Prof\.?)`, in the order the
backtracking engine tries them. -/
def honVariants : List (List Char) :=
  [str "Mrs.", str "Mrs", str "Mr.", str "Mr", str "Dr.", str "Dr", str "Prof.", str "Prof"]

/-- Match at the start of `^(?:Mrs?\.?|Dr\.?|Prof\.?)[A-Z]` (strategy 1 form;
`re.match` only anchors at the start, the rest of the line is free). -/
def honorificMatch1 (s : List Char) : Bool :=
  honVariants.any (fun p =>
    startsWithL p s &&
    (match s.drop p.length with | c :: _ => isUpperA c | [] => false))

/-- Match at the start of `^(?:Mrs?\.?|Dr\.?|Prof\.?)\s*[A-Z]` (strategy 2 form). -/
def honorificMatch2 (s : List Char) : Bool :=
  honVariants.any (fun p =>
    startsWithL p s &&
    (match (s.drop p.length).dropWhile pyWs with | c :: _ => isUpperA c | [] => false))

/-- `re.sub(r'([a-z])([A-Z])', r'\1 \2', s)`: insert a space between every
lowercase letter and the uppercase letter directly following it.  (A match
consumes both letters, but the uppercase letter can never be the first letter
of the next match, so continuing at it is the same scan.) -/
def deConcat : List Char → List Char
  | a :: b :: rest =>
    if isLowerA a && isUpperA b then a :: ' ' :: deConcat (b :: rest)
    else a :: deConcat (b :: rest)
  | s => s

/-- `re.sub(r'\.([A-Z])', r'. \1', s)`. -/
def dotSpace : List Char → List Char
  | [] => []
  | '.' :: b :: rest =>
    if isUpperA b then '.' :: ' ' :: b :: dotSpace rest
    else '.' :: dotSpace (b :: rest)
  | a :: rest => a :: dotSpace rest

/-- Helper for `honSub1`: try the alternation's branches in order. -/
def honSub1Go : List (List Char) → List Char → List Char
  | [], s => s
  | p :: ps, s =>
    if startsWithL (p ++ ['.']) s then
      match s.drop (p.length + 1) with
      | c :: rest => if isUpperA c then p ++ '.' :: ' ' :: c :: rest else honSub1Go ps s
      | [] => honSub1Go ps s
    else honSub1Go ps s

/-- `re.sub(r'(^(?:Mrs?|Dr|Prof))\.([A-Z])', r'\1. \2', s)`: anchored, so at
most one substitution, at the start of the string. -/
def honSub1 (s : List Char) : List Char :=
  honSub1Go [str "Mrs", str "Mr", str "Dr", str "Prof"] s

/-! ### `_extract_authors_from_text`: the two strategies -/

/-- The 13-word title blocklist of strategy 1. -/
def titleWords13 : List (List Char) :=
  [str "Machine", str "Learning", str "System", str "Track", str "Enable",
   str "Urban", str "Mobility", str "Enhanced", str "Real", str "Time",
   str "Smart", str "Transit", str "Bus"]

/-- The 7-word title blocklist of strategy 2. -/
def titleWords7 : List (List Char) :=
  [str "System", str "Track", str "Enable", str "Urban", str "Mobility",
   str "Enhanced", str "Real"]

/-- Institutional-marker test of strategy 1 on the lowered stripped next line. -/
def deptMarker1 (nl : List Char) : Bool :=
  startsWithL (str "department") nl || containsL (str "department of") nl ||
  containsL (str "university") nl || containsL (str "college") nl

/-- Institutional-marker test of strategy 2. -/
def deptMarker2 (nl : List Char) : Bool :=
  startsWithL (str "department") nl || containsL (str "department of") nl

/-- The author candidate (at most one) strategy 1 takes from a qualifying
stripped line: the four surface patterns in their `elif` order. -/
def strat1LineAuthors (line : List Char) : List (List Char) :=
  if camelMatch line && decide (10 < line.length) && decide (line.length < 60) then
    (let name := deConcat line
     if titleWords13.any (fun w => containsL w name) then [] else [pyStrip name])
  else if initialDotMatch line then [pyStrip (deConcat (dotSpace line))]
  else if honorificMatch1 line then [pyStrip (deConcat (honSub1 line))]
  else if spacedNameMatch line then [pyStrip line]
  else []

/-- Strategy 2's candidate: only the CamelCase, initial-dot and honorific
patterns (no spaced-name pattern), the CamelCase one with the shorter
blocklist, the honorific one with `\s*` and the generic dot substitution. -/
def strat2LineAuthors (line : List Char) : List (List Char) :=
  if camelMatch line && decide (10 < line.length) && decide (line.length < 60) then
    (let name := deConcat line
     if titleWords7.any (fun w => containsL w name) then [] else [pyStrip name])
  else if initialDotMatch line then [pyStrip (deConcat (dotSpace line))]
  else if honorificMatch2 line then [pyStrip (deConcat (dotSpace line))]
  else []

/-- One iteration of strategy 1's loop body at line index `i`: the skip
conditions (`continue` on empty or over-long stripped lines), the look-ahead
test, and the pattern dispatch. -/
def strat1StepAt (lines : List (List Char)) (i : Nat) : List (List Char) :=
  let line := pyStrip (lines.getD i [])
  if line.isEmpty || 200 < line.length then []
  else if i + 1 < lines.length &&
          deptMarker1 (toLowerL (pyStrip (lines.getD (i + 1) []))) then
    strat1LineAuthors line
  else []

/-- Strategy 1's loop over the indices `range(start_line, min(len(lines), 60))`,
breaking as soon as ten authors have accumulated.  (Python checks the break
condition only on iterations not skipped by `continue`, but a skipped
iteration leaves the list unchanged and every iteration is entered with fewer
than ten accumulated authors, so checking after each iteration is the same.) -/
def strat1Go (lines : List (List Char)) : List Nat → List (List Char) → List (List Char)
  | [], acc => acc
  | i :: is, acc =>
    let acc' := acc ++ strat1StepAt lines i
    if 10 ≤ acc'.length then acc' else strat1Go lines is acc'

/-- Strategy 1 of `_extract_authors_from_text` (`start_line = 3`). -/
def strategy1 (lines : List (List Char)) : List (List Char) :=
  strat1Go lines (List.range' 3 (min lines.length 60 - 3)) []

/-- One iteration of strategy 2 at line index `i` (no skip, no break). -/
def strat2StepAt (lines : List (List Char)) (i : Nat) : List (List Char) :=
  let line := pyStrip (lines.getD i [])
  if i + 1 < lines.length &&
     deptMarker2 (toLowerL (pyStrip (lines.getD (i + 1) []))) then
    strat2LineAuthors line
  else []

/-- Strategy 2: `for i, line in enumerate(lines[:60])`. -/
def strategy2 (lines : List (List Char)) : List (List Char) :=
  flatMapL (strat2StepAt lines) (List.range (min lines.length 60))

/-! ### `_extract_authors_from_text`: cleanup -/

/-- Local-part class `[a-zA-Z0-9._%+-]` of the email regex. -/
def isLocalChar (c : Char) : Bool :=
  isAlphaA c || isDigitA c || c = '.' || c = '_' || c = '%' || c = '+' || c = '-'

/-- Domain class `[a-zA-Z0-9.-]` of the email regex. -/
def isDomChar (c : Char) : Bool := isAlphaA c || isDigitA c || c = '.' || c = '-'

/-- Backtracking of `[a-zA-Z0-9.-]+\.[a-zA-Z]{2,}` inside the greedy domain
run `d`: the literal dot is tried at the rightmost position first (the
argument counts the candidate dot position down, and position 0 is excluded
because the `+` before the dot needs a character).  At a position holding a
`.` followed by at least two letters the match succeeds and extends over the
maximal letter run; the result is the number of characters of `d` consumed. -/
def emailDomainGo (d : List Char) : Nat → Option Nat
  | 0 => none
  | j + 1 =>
    if d.getD (j + 1) ' ' = '.' &&
       decide (2 ≤ ((d.drop (j + 2)).takeWhile isAlphaA).length) then
      some (j + 2 + ((d.drop (j + 2)).takeWhile isAlphaA).length)
    else emailDomainGo d j

/-- Match length of `\s*[a-zA-Z0-9._%+-]+@[a-zA-Z0-9.-]+\.[a-zA-Z]{2,}` at the
head of the list. -/
def emailMatchLen (s : List Char) : Option Nat :=
  let wsn := (s.takeWhile pyWs).length
  let s1 := s.drop wsn
  let locn := (s1.takeWhile isLocalChar).length
  if locn = 0 then none
  else match s1.drop locn with
    | '@' :: s2 =>
      let d := s2.takeWhile isDomChar
      match emailDomainGo d (d.length - 1) with
      | some k => some (wsn + locn + 1 + k)
      | none => none
    | _ => none

/-- The email deletion of the text-path cleanup. -/
def emailSub (s : List Char) : List Char := subAll emailMatchLen s

/-- The `false_positives` list of the cleanup. -/
def falsePositives : List (List Char) :=
  [str "Abstract", str "Introduction", str "Keywords", str "References",
   str "Acknowledgment", str "Conclusion", str "Results", str "Methods",
   str "Machine Learning", str "Artificial Intelligence", str "Deep Learning"]

/-- Per-candidate cleaning of the final loop: strip, drop trailing footnote
markers, strip, delete emails, strip. -/
def cleanCandidate (a : List Char) : List Char :=
  let a1 := pyStrip a
  let a2 := pyStrip (dropTrailing footnoteNoComma a1)
  pyStrip (emailSub a2)

/-- The validation test after cleaning: non-empty, at least four characters,
initial uppercase, containing a space or a dot. -/
def validCandidate (a : List Char) : Bool :=
  !a.isEmpty && decide (4 ≤ a.length) &&
  (match a with | c :: _ => isUpperA c | [] => false) &&
  (a.contains ' ' || a.contains '.')

/-- The dedup loop of the cleanup.  Python keeps a separate `seen` set, but it
always equals the set of entries already in `cleaned_authors`, so membership
in the accumulator is the same test. -/
def cleanupGo : List (List Char) → List (List Char) → List (List Char)
  | [], cl => cl
  | a :: rest, cl =>
    let a' := cleanCandidate a
    if validCandidate a' && !cl.contains a' && !falsePositives.contains a' then
      cleanupGo rest (cl ++ [a'])
    else cleanupGo rest cl

/-- Cleanup: examine the first 15 candidates, clean, validate, deduplicate,
return the first 10 survivors. -/
def cleanupAuthors (authors : List (List Char)) : List (List Char) :=
  (cleanupGo (authors.take 15) []).take 10

/-- `_extract_authors_from_text` on the split lines: strategy 1, then
strategy 2 when fewer than two authors were found, then the cleanup. -/
def extractAuthorsFromLines (lines : List (List Char)) : List (List Char) :=
  let s1 := strategy1 lines
  let all := if s1.length < 2 then s1 ++ strategy2 lines else s1
  cleanupAuthors all

/-- `PDFMetadataExtractor._extract_authors_from_text`. -/
def extractAuthorsFromText (text : List Char) : List (List Char) :=
  if text.isEmpty then [] else extractAuthorsFromLines (splitLines text)

/-! ### `_extract_doi` -/

/-- Match length of `10\.\d{4,}/[^\s]+` at the head of the list (the greedy
digit run is forced because `/` is not a digit, and the suffix run is the
maximal non-whitespace run). -/
def doiMatchLen : List Char → Option Nat
  | '1' :: '0' :: '.' :: rest =>
    let ds := rest.takeWhile isDigitA
    if 4 ≤ ds.length then
      match rest.drop ds.length with
      | '/' :: rest2 =>
        let sfx := rest2.takeWhile (fun c => !pyWs c)
        if sfx.isEmpty then none else some (3 + ds.length + 1 + sfx.length)
      | _ => none
    else none
  | _ => none

/-- `re.search`: the text of the leftmost match of a pattern described by a
match-length function. -/
def reSearch (m : List Char → Option Nat) : List Char → Option (List Char)
  | [] => if (m []).isSome then some [] else none
  | s@(_ :: rest) =>
    match m s with
    | some n => some (s.take n)
    | none => reSearch m rest

/-- `PDFMetadataExtractor._extract_doi`: leftmost DOI with `rstrip('.,;)')`. -/
def extractDoi (text : List Char) : Option (List Char) :=
  if text.isEmpty then none
  else match reSearch doiMatchLen text with
    | some d => some (dropTrailing (fun c => c = '.' || c = ',' || c = ';' || c = ')') d)
    | none => none

/-! ### `_extract_journal` -/

/-- Backtracking of `\s+([^\n]+)` after a literal: try group-start positions
inside `w ++ rest` from `k` down to 1 (`k = |w|` starts right after the
greedy whitespace run; position 0 is excluded because `\s+` needs one
character); the capture is the maximal newline-free run from the first
position holding a non-newline character. -/
def wsGroupGo (w rest : List Char) : Nat → Option (List Char)
  | 0 => none
  | k + 1 =>
    match w.drop (k + 1) ++ rest with
    | c :: cs =>
      if c ≠ '\n' then some ((c :: cs).takeWhile (fun c => c ≠ '\n'))
      else wsGroupGo w rest k
    | [] => wsGroupGo w rest k

/-- The group of `\s+([^\n]+)` at the head of `s`, if the tail matches. -/
def wsGroupCapture (s : List Char) : Option (List Char) :=
  let w := s.takeWhile pyWs
  if w.isEmpty then none
  else wsGroupGo w (s.drop w.length) w.length

/-- As `wsGroupGo`, but returning the number of characters consumed by
`\s+[^\n]+`. -/
def wsTailGo (w rest : List Char) : Nat → Option Nat
  | 0 => none
  | k + 1 =>
    match w.drop (k + 1) ++ rest with
    | c :: cs =>
      if c ≠ '\n' then some ((k + 1) + ((c :: cs).takeWhile (fun c => c ≠ '\n')).length)
      else wsTailGo w rest k
    | [] => wsTailGo w rest k

/-- Consumed length of `\s+[^\n]+` at the head of `s`. -/
def wsTailLen (s : List Char) : Option Nat :=
  let w := s.takeWhile pyWs
  if w.isEmpty then none
  else wsTailGo w (s.drop w.length) w.length

/-- The literal alternation `(?:Published in|Journal of|Proceedings of)`. -/
def journalLit1 (s : List Char) : Option Nat :=
  if startsWithL (str "Published in") s then some 12
  else if startsWithL (str "Journal of") s then some 10
  else if startsWithL (str "Proceedings of") s then some 14
  else none

/-- Leftmost match of `(?:Published in|Journal of|Proceedings of)\s+([^\n]+)`,
returning group 1. -/
def searchJournal1 : List Char → Option (List Char)
  | [] => none
  | s@(_ :: rest) =>
    match journalLit1 s with
    | some n =>
      match wsGroupCapture (s.drop n) with
      | some g => some g
      | none => searchJournal1 rest
    | none => searchJournal1 rest

/-- The literal alternation `(?:Journal|Review|Letters|Transactions)`. -/
def journalKw (s : List Char) : Option Nat :=
  if startsWithL (str "Journal") s then some 7
  else if startsWithL (str "Review") s then some 6
  else if startsWithL (str "Letters") s then some 7
  else if startsWithL (str "Transactions") s then some 12
  else none

/-- The literal alternation `(?:of|on|in)`. -/
def linkKw (s : List Char) : Option Nat :=
  if startsWithL (str "of") s then some 2
  else if startsWithL (str "on") s then some 2
  else if startsWithL (str "in") s then some 2
  else none

/-- The optional group `(?:\s+(?:of|on|in))?`: consumed length when taken. -/
def journal2Opt (s : List Char) : Option Nat :=
  let w := s.takeWhile pyWs
  if w.isEmpty then none
  else match linkKw (s.drop w.length) with
    | some n => some (w.length + n)
    | none => none

/-- The part `(?:\s+(?:of|on|in))?\s+[^\n]+` after the journal keyword:
consumed length.  The optional group is tried greedily first and abandoned
when the final `\s+[^\n]+` cannot match after it. -/
def journalOptTail (afterKw : List Char) : Option Nat :=
  match journal2Opt afterKw with
  | some optn =>
    match wsTailLen (afterKw.drop optn) with
    | some tn => some (optn + tn)
    | none =>
      match wsTailLen afterKw with
      | some tn => some tn
      | none => none
  | none =>
    match wsTailLen afterKw with
    | some tn => some tn
    | none => none

/-- The part `\s+(?:Journal|Review|Letters|Transactions)(?:\s+(?:of|on|in))?\s+[^\n]+`
of the second journal pattern; consumed length. -/
def journalKw2Part (s : List Char) : Option Nat :=
  let w1 := s.takeWhile pyWs
  if w1.isEmpty then none
  else
    let afterWs := s.drop w1.length
    match journalKw afterWs with
    | some kn =>
      match journalOptTail (afterWs.drop kn) with
      | some tn => some (w1.length + kn + tn)
      | none => none
    | none => none

/-- Match length at the head of the second journal pattern
`([A-Z][a-z]+\s+(?:Journal|Review|Letters|Transactions)(?:\s+(?:of|on|in))?\s+[^\n]+)`;
the capture group is the whole match. -/
def journal2Len (s : List Char) : Option Nat :=
  match s with
  | u :: rest =>
    if isUpperA u then
      let lows := rest.takeWhile isLowerA
      if lows.isEmpty then none
      else
        match journalKw2Part (rest.drop lows.length) with
        | some n => some (1 + lows.length + n)
        | none => none
    else none
  | [] => none

/-- `re.sub(r'\s+', ' ', s)`: each maximal whitespace run becomes one space. -/
def collapseWsGo : Bool → List Char → List Char
  | _, [] => []
  | inRun, c :: rest =>
    if pyWs c then (if inRun then collapseWsGo true rest else ' ' :: collapseWsGo true rest)
    else c :: collapseWsGo false rest

/-- Entry point for `collapseWsGo`. -/
def collapseWs (s : List Char) : List Char := collapseWsGo false s

/-- `PDFMetadataExtractor._extract_journal`: the two patterns over the first
1000 characters, in order; group 1, stripped, whitespace-collapsed, capped at
200 characters. -/
def extractJournal (text : List Char) : Option (List Char) :=
  if text.isEmpty then none
  else
    let t := text.take 1000
    match searchJournal1 t with
    | some g => some ((collapseWs (pyStrip g)).take 200)
    | none =>
      match reSearch journal2Len t with
      | some g => some ((collapseWs (pyStrip g)).take 200)
      | none => none

/-! ### `_extract_abstract` -/

/-- Terminator `(?:\n\n|\n[A-Z]|\nKeywords:)` of the abstract regex under its
global `(?i)` flag: `[A-Z]` is case-insensitive, so a newline followed by
another newline or by any ASCII letter terminates (the `\nKeywords:` branch
is subsumed by `\n[A-Z]`). -/
def absTermAt : List Char → Bool
  | '\n' :: c :: _ => c = '\n' || isAlphaA c
  | _ => false

/-- The lazy `(.+?)` (DOTALL): consume the shortest non-empty run after which
the terminator matches; `acc` holds the consumed characters reversed. -/
def absLazyGo (acc : List Char) : List Char → Option (List Char)
  | [] => none
  | c :: rest =>
    if absTermAt (c :: rest) && !acc.isEmpty then some acc.reverse
    else absLazyGo (c :: acc) rest

/-- Class `[:\s]`. -/
def isColonWs (c : Char) : Bool := c = ':' || pyWs c

/-- Try the `\n` of `abstract[:\s]*\n` at give-back positions of the greedy
`[:\s]*` run `r`, rightmost first (argument `p + 1` tries position `p`; the
position right after the whole run always fails because the following
character is not in `[:\s]`, hence not a newline); on success run the lazy
capture on the remainder. -/
def absNlGo (r rest : List Char) : Nat → Option (List Char)
  | 0 => none
  | p + 1 =>
    if r.getD p ' ' = '\n' then
      match absLazyGo [] (r.drop (p + 1) ++ rest) with
      | some g => some g
      | none => absNlGo r rest p
    else absNlGo r rest p

/-- Case-insensitive match of the literal `abstract` at the head. -/
def absLit (s : List Char) : Bool :=
  startsWithL (str "abstract") (toLowerL (s.take 8))

/-- `re.search(r'(?i)abstract[:\s]*\n(.+?)(?:\n\n|\n[A-Z]|\nKeywords:)', text,
re.DOTALL)`: scan for a case-insensitive `abstract`; the greedy `[:\s]*`
gives back characters until its `\n` matches; the lazy capture runs to the
nearest terminator; on failure resume the scan at the next position.
Returns group 1. -/
def absSearch : List Char → Option (List Char)
  | [] => none
  | s@(_ :: rest) =>
    if absLit s then
      let r := (s.drop 8).takeWhile isColonWs
      match absNlGo r ((s.drop 8).drop r.length) r.length with
      | some g => some g
      | none => absSearch rest
    else absSearch rest

/-- `PDFMetadataExtractor._extract_abstract`: group 1, stripped,
whitespace-collapsed, capped at 500 characters. -/
def extractAbstract (text : List Char) : Option (List Char) :=
  if text.isEmpty then none
  else match absSearch text with
    | some g => some ((collapseWs (pyStrip g)).take 500)
    | none => none

/-! ### `extract_metadata` -/

/-- The embedded-metadata dictionary (`reader.metadata`): the three keys
`extract_metadata` reads.  A missing key is `none`; `/Title` and `/Author`
can also be present but empty. -/
structure PdfInfo where
  title : Option (List Char)
  author : Option (List Char)
  creationDate : Option (List Char)
deriving DecidableEq

/-- Result of `page.extract_text()`: the text, or an exception. -/
inductive PageText where
  | ok (t : List Char)
  | raises
deriving DecidableEq

/-- Result of `PdfReader(pdf_path)`: a reader with an optional metadata
dictionary (a falsy `reader.metadata` is `none`) and a page list, or an
exception. -/
inductive Reader where
  | ok (info : Option PdfInfo) (pages : List PageText)
  | raises
deriving DecidableEq

/-- The metadata record: exactly the eight keys created by the dictionary
literal of `extract_metadata` (no other key is ever assigned; `authors` has
list type, so it is always a list, never absent). -/
structure Metadata where
  filename : List Char
  filepath : List Char
  title : Option (List Char)
  authors : List (List Char)
  year : Option Nat
  journal : Option (List Char)
  doi : Option (List Char)
  abstract : Option (List Char)
deriving DecidableEq

/-- `os.path.basename` (POSIX): everything after the last `/`. -/
def basenameL (p : List Char) : List Char :=
  (p.reverse.takeWhile (fun c => c ≠ '/')).reverse

/-- `os.path.splitext(s)[0]` for a basename: cut at the last dot, except when
every character before that dot is a dot (leading dots do not start an
extension). -/
def splitextRoot (s : List Char) : List Char :=
  let extLen := (s.reverse.takeWhile (fun c => c ≠ '.')).length
  if extLen = s.length then s
  else
    let dotIdx := s.length - extLen - 1
    if (s.take dotIdx).all (fun c => c = '.') then s else s.take dotIdx

/-- The filename-derived fallback title:
`os.path.splitext(filename)[0].replace('_', ' ').replace('-', ' ')`. -/
def filenameTitle (filename : List Char) : List Char :=
  (splitextRoot filename).map (fun c => if c = '_' then ' ' else if c = '-' then ' ' else c)

/-- Python truthiness of the `title` field (`None` and `''` are falsy). -/
def titleTruthy : Option (List Char) → Bool
  | some (_ :: _) => true
  | _ => false

/-- Python truthiness of the `year` field (`None` and `0` are falsy). -/
def yearTruthy : Option Nat → Bool
  | some y => decide (y ≠ 0)
  | none => false

/-- The initial dictionary literal of `extract_metadata`. -/
def initMeta (pdfPath : List Char) : Metadata :=
  { filename := basenameL pdfPath, filepath := pdfPath, title := none, authors := [],
    year := none, journal := none, doi := none, abstract := none }

/-- The `if pdf_info:` block: take the title, parse the author string when
truthy, read the creation date (default `''`). -/
def applyInfo (m : Metadata) : Option PdfInfo → Metadata
  | none => m
  | some pi =>
    let mA := { m with title := pi.title }
    let mB := match pi.author with
      | some a => if a.isEmpty then mA else { mA with authors := parseAuthors a }
      | none => mA
    match extractYear (pi.creationDate.getD []) with
    | some y => { mB with year := some y }
    | none => mB

/-- The first-page block of `extract_metadata` on extracted text `t`. -/
def applyText (m : Metadata) (t : List Char) : Metadata :=
  let mT := if titleTruthy m.title then m else { m with title := extractTitleFromText t }
  let mA := if mT.authors.isEmpty then { mT with authors := extractAuthorsFromText t } else mT
  let mY := if yearTruthy mA.year then mA else { mA with year := extractYearFromText t }
  { mY with doi := extractDoi t, journal := extractJournal t, abstract := extractAbstract t }

/-- The filename fallback at the end of the `try` block. -/
def applyTitleFallback (m : Metadata) : Metadata :=
  if titleTruthy m.title then m else { m with title := some (filenameTitle m.filename) }

/-- The body of the `try` block: `.error s` models an exception escaping the
body with the record in state `s` at raise time.  The only raising operations
are `PdfReader(...)` and `pages[0].extract_text()`; the in-scope heuristics
are total functions.  The filename fallback is the last statement inside the
`try`, so it does not run on the raising paths. -/
def tryBody (r : Reader) (m0 : Metadata) : Except Metadata Metadata :=
  match r with
  | .raises => .error m0
  | .ok info pages =>
    let m1 := applyInfo m0 info
    match pages with
    | [] => .ok (applyTitleFallback m1)
    | .raises :: _ => .error m1
    | .ok t :: _ => .ok (applyTitleFallback (applyText m1 t))

/-- `PDFMetadataExtractor.extract_metadata`: the `except Exception` arm logs
and falls through to `return metadata`, so a raised exception yields the
record as it stood when the exception occurred. -/
def extract_metadata (pdfPath : List Char) (r : Reader) : Metadata :=
  match tryBody r (initMeta pdfPath) with
  | .ok m => m
  | .error m => m

/-! ### Helper lemmas -/

theorem getD_of_get? {α : Type} {l : List α} {n : Nat} {a d : α}
    (h : l.get? n = some a) : l.getD n d = a := by
  simp [List.getD, ← List.get?_eq_getElem?, h]

theorem startsWithL_iff {p s : List Char} :
    startsWithL p s = true ↔ ∃ t, s = p ++ t := by
  induction p generalizing s with
  | nil => simp [startsWithL]
  | cons a ps ih =>
    cases s with
    | nil => simp [startsWithL]
    | cons c cs =>
      simp only [startsWithL, Bool.and_eq_true, decide_eq_true_eq, ih, List.cons_append,
        List.cons.injEq]
      constructor
      · rintro ⟨rfl, t, rfl⟩; exact ⟨t, rfl, rfl⟩
      · rintro ⟨t, h1, h2⟩; exact ⟨h1.symm, t, h2⟩

theorem mem_flatMapL {α β : Type} {f : α → List β} {l : List α} {b : β}
    (h : b ∈ flatMapL f l) : ∃ x ∈ l, b ∈ f x := by
  induction l with
  | nil => simp [flatMapL] at h
  | cons a as ih =>
    rw [flatMapL, List.mem_append] at h
    rcases h with h | h
    · exact ⟨a, List.mem_cons_self a as, h⟩
    · obtain ⟨x, hx, hb⟩ := ih h
      exact ⟨x, List.mem_cons_of_mem a hx, hb⟩

theorem flatMapL_append {α β : Type} (f : α → List β) (l1 l2 : List α) :
    flatMapL f (l1 ++ l2) = flatMapL f l1 ++ flatMapL f l2 := by
  induction l1 with
  | nil => rfl
  | cons a as ih => simp [flatMapL, ih]

/-! ### C8: `_parse_authors` on the spec's two example inputs -/

/-- C8: parsing the embedded author string splits on the listed delimiters and
strips emails, affiliations and footnote markers; `"John Smith; Jane Doe"`
yields exactly `["John Smith", "Jane Doe"]`, and
`"John Smith (john@example.com)¹, Jane Doe²"` yields the same list. -/
theorem parseAuthors_examples :
    parseAuthors (str "John Smith; Jane Doe") = [str "John Smith", str "Jane Doe"] ∧
    parseAuthors (str "John Smith (john@example.com)¹, Jane Doe²") =
      [str "John Smith", str "Jane Doe"] := by
  constructor <;> decide

/-! ### C2: `extract` never propagates an exception -/

/-- C2: for every path and every reader outcome — including the raising ones —
the `try` body either completes, in which case `extract_metadata` returns its
record, or raises, in which case the `except` arm catches and
`extract_metadata` returns the record in its state at raise time; a record is
returned normally in both cases. -/
theorem extract_metadata_total (p : List Char) (r : Reader) :
    (∃ m, tryBody r (initMeta p) = Except.ok m ∧ extract_metadata p r = m) ∨
    (∃ m, tryBody r (initMeta p) = Except.error m ∧ extract_metadata p r = m) := by
  cases h : tryBody r (initMeta p) with
  | ok m => exact Or.inl ⟨m, rfl, by simp [extract_metadata, h]⟩
  | error m => exact Or.inr ⟨m, rfl, by simp [extract_metadata, h]⟩

/-! ### C10: the record's key set, `filepath` and `authors` -/

theorem applyInfo_names (m : Metadata) (info : Option PdfInfo) :
    (applyInfo m info).filename = m.filename ∧ (applyInfo m info).filepath = m.filepath := by
  unfold applyInfo
  dsimp only
  repeat' split
  all_goals exact ⟨rfl, rfl⟩

theorem applyText_names (m : Metadata) (t : List Char) :
    (applyText m t).filename = m.filename ∧ (applyText m t).filepath = m.filepath := by
  unfold applyText
  dsimp only
  repeat' split
  all_goals exact ⟨rfl, rfl⟩

theorem applyTitleFallback_names (m : Metadata) :
    (applyTitleFallback m).filename = m.filename ∧
      (applyTitleFallback m).filepath = m.filepath := by
  unfold applyTitleFallback
  split <;> exact ⟨rfl, rfl⟩

/-- C10: on every path (the exception path included) the returned record is
the eight-field record built by the initial dictionary literal — in
particular it always carries `filepath` holding the full input path and
`filename` holding its basename, and its `authors` field is of list type, so
it is a (possibly empty) list, never absent. -/
theorem extract_metadata_record_shape (p : List Char) (r : Reader) :
    (extract_metadata p r).filepath = p ∧ (extract_metadata p r).filename = basenameL p := by
  cases r with
  | raises => exact ⟨rfl, rfl⟩
  | ok info pages =>
    have h1 := applyInfo_names (initMeta p) info
    cases pages with
    | nil =>
      have h2 := applyTitleFallback_names (applyInfo (initMeta p) info)
      have he : extract_metadata p (Reader.ok info []) =
          applyTitleFallback (applyInfo (initMeta p) info) := rfl
      rw [he]
      exact ⟨h2.2.trans h1.2, h2.1.trans h1.1⟩
    | cons pg ps =>
      cases pg with
      | raises =>
        have he : extract_metadata p (Reader.ok info (PageText.raises :: ps)) =
            applyInfo (initMeta p) info := rfl
        rw [he]
        exact ⟨h1.2, h1.1⟩
      | ok t =>
        have h2 := applyText_names (applyInfo (initMeta p) info) t
        have h3 := applyTitleFallback_names (applyText (applyInfo (initMeta p) info) t)
        have he : extract_metadata p (Reader.ok info (PageText.ok t :: ps)) =
            applyTitleFallback (applyText (applyInfo (initMeta p) info) t) := rfl
        rw [he]
        exact ⟨h3.2.trans (h2.2.trans h1.2), h3.1.trans (h2.1.trans h1.1)⟩

/-! ### C1: the failure path and the title floor -/

theorem titleTruthy_iff {o : Option (List Char)} :
    titleTruthy o = true ↔ ∃ c cs, o = some (c :: cs) := by
  cases o with
  | none => simp [titleTruthy]
  | some l => cases l <;> simp [titleTruthy]

theorem filenameTitle_ne_nil {s : List Char} (h : s ≠ []) : filenameTitle s ≠ [] := by
  unfold filenameTitle splitextRoot
  dsimp only
  split
  · simpa using h
  · split
    · simpa using h
    · next hall =>
      intro hmap
      rw [List.map_eq_nil] at hmap
      exact hall (by rw [hmap]; rfl)

theorem applyTitleFallback_title {m : Metadata} (h : m.filename ≠ []) :
    ∃ t, (applyTitleFallback m).title = some t ∧ t ≠ [] := by
  unfold applyTitleFallback
  split
  · next htr =>
    obtain ⟨c, cs, hcs⟩ := titleTruthy_iff.mp htr
    exact ⟨c :: cs, hcs, by simp⟩
  · exact ⟨filenameTitle m.filename, rfl, filenameTitle_ne_nil h⟩

/-- C1 counterexample: when `PdfReader` itself raises, the `except` arm
returns the record from before the filename fallback (which sits inside the
`try`, as its last statement) has run: the returned title is absent — neither
non-empty nor the filename-derived text, contrary to the claim. -/
theorem extract_metadata_raises_title_none :
    (extract_metadata (str "paper.pdf") Reader.raises).title = none ∧
    (extract_metadata (str "paper.pdf") Reader.raises).title ≠
      some (filenameTitle (str "paper.pdf")) := by
  constructor <;> decide

/-- C1 corrected: when the `try` body completes (no internal failure) and the
input path has a non-empty basename, the returned title is present and
non-empty; but on an unexpected failure the record keeps exactly the fields
resolved before the raise — in particular an immediate reader failure returns
the initial record (title and every heuristic field absent, authors the empty
list), not a record with the filename-derived title. -/
theorem extract_metadata_title_floor :
    (∀ p r m, basenameL p ≠ [] → tryBody r (initMeta p) = Except.ok m →
        ∃ t, m.title = some t ∧ t ≠ []) ∧
    (∀ p, extract_metadata p Reader.raises = initMeta p) := by
  constructor
  · intro p r m hbn hok
    cases r with
    | raises => simp [tryBody] at hok
    | ok info pages =>
      cases pages with
      | nil =>
        rw [show tryBody (Reader.ok info []) (initMeta p) =
            Except.ok (applyTitleFallback (applyInfo (initMeta p) info)) from rfl] at hok
        injection hok with hok
        subst hok
        exact applyTitleFallback_title
          (by rw [(applyInfo_names (initMeta p) info).1]; exact hbn)
      | cons pg ps =>
        cases pg with
        | raises =>
          rw [show tryBody (Reader.ok info (PageText.raises :: ps)) (initMeta p) =
              Except.error (applyInfo (initMeta p) info) from rfl] at hok
          simp at hok
        | ok t =>
          rw [show tryBody (Reader.ok info (PageText.ok t :: ps)) (initMeta p) =
              Except.ok (applyTitleFallback (applyText (applyInfo (initMeta p) info) t))
              from rfl] at hok
          injection hok with hok
          subst hok
          refine applyTitleFallback_title ?_
          rw [(applyText_names (applyInfo (initMeta p) info) t).1,
            (applyInfo_names (initMeta p) info).1]
          exact hbn
  · intro p; rfl

/-- Witness for the corrected C1, at a concrete completing document and the
concrete raising one. -/
theorem extract_metadata_title_floor_witness :
    (∃ t, (extract_metadata (str "a.pdf") (Reader.ok none [])).title = some t ∧ t ≠ []) ∧
    extract_metadata (str "a.pdf") Reader.raises = initMeta (str "a.pdf") :=
  ⟨extract_metadata_title_floor.1 (str "a.pdf") (Reader.ok none [])
      (extract_metadata (str "a.pdf") (Reader.ok none [])) (by decide) rfl,
   extract_metadata_title_floor.2 (str "a.pdf")⟩

/-! ### C6: title resolution from first-page text -/

theorem firstGoodLine_length {ls : List (List Char)} {l : List Char}
    (h : firstGoodLine ls = some l) : 10 < l.length := by
  induction ls with
  | nil => simp [firstGoodLine] at h
  | cons a as ih =>
    rw [firstGoodLine] at h
    split at h
    · next hc =>
      injection h with h'
      subst h'
      have := (Bool.and_eq_true _ _).mp hc
      simpa using this.1
    · exact ih h

theorem extractTitleFromText_length {t l : List Char}
    (h : extractTitleFromText t = some l) : 10 < l.length := by
  unfold extractTitleFromText at h
  split at h
  · simp at h
  · exact firstGoodLine_length h

theorem applyInfo_title (m : Metadata) (info : Option PdfInfo) :
    (applyInfo m info).title = match info with | none => m.title | some pi => pi.title := by
  unfold applyInfo
  dsimp only
  repeat' split
  all_goals rfl

theorem applyText_title (m : Metadata) (t : List Char) :
    (applyText m t).title = if titleTruthy m.title then m.title else extractTitleFromText t := by
  unfold applyText
  dsimp only
  repeat' split
  all_goals simp_all

theorem applyTitleFallback_title_eq (m : Metadata) :
    (applyTitleFallback m).title =
      if titleTruthy m.title then m.title else some (filenameTitle m.filename) := by
  unfold applyTitleFallback
  split <;> simp_all

/-- C6 counterexample: the eleventh line is the first line longer than ten
characters and not all uppercase, but `_extract_title_from_text` only scans
`lines[:10]`, so the extractor falls back to the filename-derived title even
though a qualifying substantial line exists in the first-page text. -/
theorem extract_title_window_cex :
    (extract_metadata (str "my_paper.pdf")
        (Reader.ok none
          [PageText.ok (str "a\nb\nc\nd\ne\nf\ng\nh\ni\nj\nThis Is The Real Paper Title")])).title
      = some (str "my paper") ∧
    (extract_metadata (str "my_paper.pdf")
        (Reader.ok none
          [PageText.ok (str "a\nb\nc\nd\ne\nf\ng\nh\ni\nj\nThis Is The Real Paper Title")])).title
      ≠ some (str "This Is The Real Paper Title") := by
  constructor <;> decide

/-- C6 corrected: when the embedded metadata carries no (truthy) title, the
returned title is the first stripped line longer than ten characters and not
all uppercase **among the first ten lines** of the first-page text, and the
filename-derived fallback is used whenever no such line exists in that
window. -/
theorem extract_metadata_title_resolution (p t : List Char) (info : Option PdfInfo)
    (ps : List PageText)
    (hno : info = none ∨ ∃ pi, info = some pi ∧ titleTruthy pi.title = false) :
    (extract_metadata p (Reader.ok info (PageText.ok t :: ps))).title =
      some ((extractTitleFromText t).getD (filenameTitle (basenameL p))) := by
  have he : extract_metadata p (Reader.ok info (PageText.ok t :: ps)) =
      applyTitleFallback (applyText (applyInfo (initMeta p) info) t) := rfl
  rw [he]
  have h1 : titleTruthy (applyInfo (initMeta p) info).title = false := by
    rw [applyInfo_title]
    rcases hno with rfl | ⟨pi, rfl, hpi⟩
    · rfl
    · exact hpi
  have h2 : (applyText (applyInfo (initMeta p) info) t).title = extractTitleFromText t := by
    rw [applyText_title, h1]
    simp
  rw [applyTitleFallback_title_eq, h2]
  cases hT : extractTitleFromText t with
  | some l =>
    have hlen := extractTitleFromText_length hT
    have htr : titleTruthy (some l) = true := by
      cases l with
      | nil => simp at hlen
      | cons c cs => rfl
    rw [htr]
    simp
  | none =>
    rw [show titleTruthy none = false from rfl]
    simp only [if_false, Bool.false_eq_true, Option.getD_none]
    rw [(applyText_names (applyInfo (initMeta p) info) t).1,
      (applyInfo_names (initMeta p) info).1]
    rfl

/-- Witness for the corrected C6: a qualifying line inside the window is
chosen; with none in the window the filename fallback applies. -/
theorem extract_metadata_title_resolution_witness :
    (extract_metadata (str "a_b.pdf")
        (Reader.ok none [PageText.ok (str "short\nA Long Enough Title Line")])).title =
      some ((extractTitleFromText (str "short\nA Long Enough Title Line")).getD
        (filenameTitle (basenameL (str "a_b.pdf")))) :=
  extract_metadata_title_resolution (str "a_b.pdf") (str "short\nA Long Enough Title Line")
    none [] (Or.inl rfl)

/-! ### C9: the year range invariant -/

theorem extractYear_bounds {d : List Char} {y : Nat} (h : extractYear d = some y) :
    1900 ≤ y ∧ y ≤ 2100 := by
  unfold extractYear at h
  split at h
  · simp at h
  · split at h
    · split at h
      · next hcond =>
        injection h with h'
        subst h'
        simpa using hcond
      · simp at h
    · simp at h

theorem foldl_max_mem (x : Nat) (xs : List Nat) : xs.foldl Nat.max x ∈ x :: xs := by
  induction xs generalizing x with
  | nil => simp [List.foldl]
  | cons a as ih =>
    rw [List.foldl_cons]
    rcases List.mem_cons.mp (ih (Nat.max x a)) with h | h
    · rcases Nat.le_total x a with h2 | h2
      · have h3 : Nat.max x a = a := Nat.max_eq_right h2
        rw [h, h3]; simp
      · have h3 : Nat.max x a = x := Nat.max_eq_left h2
        rw [h, h3]; simp
    · simp [h]

theorem pyMax_mem {l : List Nat} {m : Nat} (h : pyMax l = some m) : m ∈ l := by
  cases l with
  | nil => simp [pyMax] at h
  | cons x xs =>
    rw [pyMax] at h
    injection h with h'
    rw [← h']
    exact foldl_max_mem x xs

theorem extractYearFromText_bounds {t : List Char} {y : Nat}
    (h : extractYearFromText t = some y) : 1900 ≤ y ∧ y ≤ 2100 := by
  unfold extractYearFromText at h
  split at h
  · simp at h
  · dsimp only at h
    split at h
    · simp at h
    · split at h
      · simp at h
      · have hy := pyMax_mem h
        have := List.of_mem_filter hy
        simpa using this

theorem applyInfo_year (m : Metadata) (info : Option PdfInfo) :
    (applyInfo m info).year = m.year ∨
      ∃ pi, info = some pi ∧
        (applyInfo m info).year = extractYear (pi.creationDate.getD []) := by
  cases info with
  | none => exact Or.inl rfl
  | some pi =>
    unfold applyInfo
    dsimp only
    cases hy : extractYear (pi.creationDate.getD []) with
    | some y =>
      refine Or.inr ⟨pi, rfl, ?_⟩
      simp only [hy]
    | none =>
      left
      simp only [hy]
      cases hA : pi.author with
      | none => rfl
      | some a => by_cases ha : a.isEmpty <;> simp [ha]

theorem applyText_year (m : Metadata) (t : List Char) :
    (applyText m t).year = if yearTruthy m.year then m.year else extractYearFromText t := by
  unfold applyText
  dsimp only
  repeat' split
  all_goals simp_all

theorem applyTitleFallback_year (m : Metadata) :
    (applyTitleFallback m).year = m.year := by
  unfold applyTitleFallback
  split <;> rfl

theorem applyInfo_year_bounds {m : Metadata} (info : Option PdfInfo)
    (hm : ∀ z, m.year = some z → 1900 ≤ z ∧ z ≤ 2100) :
    ∀ z, (applyInfo m info).year = some z → 1900 ≤ z ∧ z ≤ 2100 := by
  intro z hz
  rcases applyInfo_year m info with h | ⟨pi, _, h⟩
  · exact hm z (h ▸ hz)
  · exact extractYear_bounds (h ▸ hz)

/-- C9: whenever the `year` field of the returned record is present it lies in
[1900, 2100], whether it was parsed from the embedded creation-date string or
from the 4-digit scan of the first-page text; otherwise the field is absent. -/
theorem extract_metadata_year_bounds (p : List Char) (r : Reader) (y : Nat)
    (h : (extract_metadata p r).year = some y) : 1900 ≤ y ∧ y ≤ 2100 := by
  have hinit : ∀ z, (initMeta p).year = some z → 1900 ≤ z ∧ z ≤ 2100 := by
    intro z hz
    simp [initMeta] at hz
  cases r with
  | raises => exact hinit y h
  | ok info pages =>
    cases pages with
    | nil =>
      rw [show extract_metadata p (Reader.ok info []) =
          applyTitleFallback (applyInfo (initMeta p) info) from rfl,
        applyTitleFallback_year] at h
      exact applyInfo_year_bounds info hinit y h
    | cons pg ps =>
      cases pg with
      | raises =>
        rw [show extract_metadata p (Reader.ok info (PageText.raises :: ps)) =
            applyInfo (initMeta p) info from rfl] at h
        exact applyInfo_year_bounds info hinit y h
      | ok t =>
        rw [show extract_metadata p (Reader.ok info (PageText.ok t :: ps)) =
            applyTitleFallback (applyText (applyInfo (initMeta p) info) t) from rfl,
          applyTitleFallback_year, applyText_year] at h
        split at h
        · exact applyInfo_year_bounds info hinit y h
        · exact extractYearFromText_bounds h

/-- Witness for C9 at a concrete document with an embedded creation date. -/
theorem extract_metadata_year_bounds_witness : 1900 ≤ 2020 ∧ 2020 ≤ 2100 :=
  extract_metadata_year_bounds (str "a.pdf")
    (Reader.ok (some ⟨none, none, some (str "D:2020")⟩) []) 2020 (by decide)

/-! ### C3: author-list hygiene -/

/-- C3 counterexample: `_parse_authors` performs no deduplication, so a
duplicated embedded author string yields a returned record whose `authors`
list contains two identical entries. -/
theorem parse_authors_duplicate_cex :
    (extract_metadata (str "a.pdf")
        (Reader.ok (some ⟨none, some (str "John Smith; John Smith"), none⟩) [])).authors =
      [str "John Smith", str "John Smith"] ∧
    ¬ ((extract_metadata (str "a.pdf")
        (Reader.ok (some ⟨none, some (str "John Smith; John Smith"), none⟩) [])).authors).Nodup := by
  constructor <;> decide

theorem parseAuthors_length {s a : List Char} (h : a ∈ parseAuthors s) : 3 ≤ a.length := by
  unfold parseAuthors at h
  split at h
  · simp at h
  · obtain ⟨t, _, hb⟩ := mem_flatMapL h
    dsimp only at hb
    split at hb
    · next hc =>
      rw [List.mem_singleton] at hb
      subst hb
      have h2 := of_decide_eq_true ((Bool.and_eq_true _ _).mp hc).2
      omega
    · simp at hb

theorem contains_iff_mem {l : List (List Char)} {a : List Char} :
    l.contains a = true ↔ a ∈ l :=
  List.elem_iff

theorem cleanupGo_sub (l : List (List Char)) : ∀ cl, ∃ s, cleanupGo l cl = cl ++ s := by
  induction l with
  | nil => exact fun cl => ⟨[], by simp [cleanupGo]⟩
  | cons a rest ih =>
    intro cl
    rw [cleanupGo]
    split
    · obtain ⟨s, hs⟩ := ih (cl ++ [cleanCandidate a])
      exact ⟨cleanCandidate a :: s, by rw [hs]; simp⟩
    · exact ih cl

theorem cleanupGo_nodup (l : List (List Char)) :
    ∀ cl, cl.Nodup → (cleanupGo l cl).Nodup := by
  induction l with
  | nil => intro cl h; simpa [cleanupGo] using h
  | cons a rest ih =>
    intro cl h
    rw [cleanupGo]
    split
    · next hc =>
      refine ih _ ?_
      have hnot : cleanCandidate a ∉ cl := by
        intro hmem
        have hb := ((Bool.and_eq_true _ _).mp ((Bool.and_eq_true _ _).mp hc).1).2
        rw [Bool.not_eq_true'] at hb
        rw [← contains_iff_mem] at hmem
        rw [hb] at hmem
        cases hmem
      have hd : cl.Disjoint [cleanCandidate a] := by
        intro x hx hxs
        rw [List.mem_singleton] at hxs
        subst hxs
        exact hnot hx
      exact h.append (List.nodup_singleton _) hd
    · exact ih cl h

theorem cleanupGo_length (l : List (List Char)) :
    ∀ cl, (∀ b ∈ cl, 4 ≤ b.length) → ∀ a ∈ cleanupGo l cl, 4 ≤ a.length := by
  induction l with
  | nil => intro cl hcl; simpa [cleanupGo] using hcl
  | cons x rest ih =>
    intro cl hcl
    rw [cleanupGo]
    split
    · next hc =>
      refine ih _ ?_
      intro b hb
      rcases List.mem_append.mp hb with hb | hb
      · exact hcl b hb
      · rw [List.mem_singleton] at hb
        subst hb
        have hv := ((Bool.and_eq_true _ _).mp ((Bool.and_eq_true _ _).mp hc).1).1
        simp only [validCandidate, Bool.and_eq_true, decide_eq_true_eq] at hv
        exact hv.1.1.2
    · exact ih cl hcl

theorem cleanupAuthors_nodup (l : List (List Char)) : (cleanupAuthors l).Nodup :=
  (List.take_sublist _ _).nodup (cleanupGo_nodup _ _ List.nodup_nil)

theorem cleanupAuthors_length {l : List (List Char)} {a : List Char}
    (h : a ∈ cleanupAuthors l) : 4 ≤ a.length :=
  cleanupGo_length _ _ (by simp) a ((List.take_sublist _ _).subset h)

theorem extractAuthorsFromText_nodup (t : List Char) :
    (extractAuthorsFromText t).Nodup := by
  unfold extractAuthorsFromText
  split
  · exact List.nodup_nil
  · exact cleanupAuthors_nodup _

theorem extractAuthorsFromText_length {t a : List Char}
    (h : a ∈ extractAuthorsFromText t) : 4 ≤ a.length := by
  unfold extractAuthorsFromText at h
  split at h
  · simp at h
  · exact cleanupAuthors_length h

theorem applyInfo_authors (m : Metadata) (info : Option PdfInfo) :
    (applyInfo m info).authors = m.authors ∨
      ∃ a', (applyInfo m info).authors = parseAuthors a' := by
  cases info with
  | none => exact Or.inl rfl
  | some pi =>
    unfold applyInfo
    dsimp only
    cases hy : extractYear (pi.creationDate.getD []) with
    | some y =>
      simp only [hy]
      cases hA : pi.author with
      | none => exact Or.inl rfl
      | some a =>
        by_cases ha : a.isEmpty
        · simp [ha]
        · simp only [ha, if_false, Bool.false_eq_true]
          exact Or.inr ⟨a, rfl⟩
    | none =>
      simp only [hy]
      cases hA : pi.author with
      | none => exact Or.inl rfl
      | some a =>
        by_cases ha : a.isEmpty
        · simp [ha]
        · simp only [ha, if_false, Bool.false_eq_true]
          exact Or.inr ⟨a, rfl⟩

theorem applyText_authors (m : Metadata) (t : List Char) :
    (applyText m t).authors = m.authors ∨
      (applyText m t).authors = extractAuthorsFromText t := by
  unfold applyText
  dsimp only
  repeat' split
  all_goals first | exact Or.inl rfl | exact Or.inr rfl

theorem applyTitleFallback_authors (m : Metadata) :
    (applyTitleFallback m).authors = m.authors := by
  unfold applyTitleFallback
  split <;> rfl

theorem record_authors_length {p : List Char} {r : Reader} {a : List Char}
    (h : a ∈ (extract_metadata p r).authors) : 3 ≤ a.length := by
  have from_info : ∀ (info : Option PdfInfo),
      a ∈ (applyInfo (initMeta p) info).authors → 3 ≤ a.length := by
    intro info hmem
    rcases applyInfo_authors (initMeta p) info with he | ⟨a', he⟩
    · rw [he] at hmem; simp [initMeta] at hmem
    · rw [he] at hmem; exact parseAuthors_length hmem
  cases r with
  | raises => simp [extract_metadata, tryBody, initMeta] at h
  | ok info pages =>
    cases pages with
    | nil =>
      rw [show extract_metadata p (Reader.ok info []) =
          applyTitleFallback (applyInfo (initMeta p) info) from rfl,
        applyTitleFallback_authors] at h
      exact from_info info h
    | cons pg ps =>
      cases pg with
      | raises =>
        rw [show extract_metadata p (Reader.ok info (PageText.raises :: ps)) =
            applyInfo (initMeta p) info from rfl] at h
        exact from_info info h
      | ok t =>
        rw [show extract_metadata p (Reader.ok info (PageText.ok t :: ps)) =
            applyTitleFallback (applyText (applyInfo (initMeta p) info) t) from rfl,
          applyTitleFallback_authors] at h
        rcases applyText_authors (applyInfo (initMeta p) info) t with he | he
        · rw [he] at h; exact from_info info h
        · rw [he] at h
          have := extractAuthorsFromText_length h
          omega

/-- C3 corrected: every author entry — from the embedded-metadata parse, from
the text heuristics, and hence in every returned record — has length at least
3; the text-heuristic list is additionally duplicate-free; but the
embedded-metadata parse performs no deduplication, so a record built from a
duplicated embedded author string can contain identical entries (see the
counterexample). -/
theorem authors_hygiene :
    (∀ s a, a ∈ parseAuthors s → 3 ≤ a.length) ∧
    (∀ t, (extractAuthorsFromText t).Nodup) ∧
    (∀ t a, a ∈ extractAuthorsFromText t → 3 ≤ a.length) ∧
    (∀ p r a, a ∈ (extract_metadata p r).authors → 3 ≤ a.length) :=
  ⟨fun _ _ h => parseAuthors_length h,
   fun t => extractAuthorsFromText_nodup t,
   fun _ _ h => by have := extractAuthorsFromText_length h; omega,
   fun _ _ _ h => record_authors_length h⟩

/-- Witness for the corrected C3 at concrete author strings and texts. -/
theorem authors_hygiene_witness :
    3 ≤ (str "John Smith").length ∧ 3 ≤ (str "G. Rishab Babu").length :=
  ⟨authors_hygiene.1 (str "John Smith") (str "John Smith") (by decide),
   authors_hygiene.2.2.1 (str "G.RishabBabu\nDepartment of Computer Science")
     (str "G. Rishab Babu") (by decide)⟩

/-! ### C4: the relaxed second pass -/

/-- C4 counterexample: a line matching the ordinary space-separated-name
pattern, followed by a line carrying the department marker, is not admitted by
the relaxed second pass (strategy 1 starts at line 3, and strategy 2 has no
spaced-name branch), so extraction returns the empty list — refuting the
claim that the relaxed pass admits "the same four surface patterns". -/
theorem strategy2_no_spaced_name_cex :
    spacedNameMatch (str "John Smith") = true ∧
    deptMarker2 (toLowerL (pyStrip (str "Department of Computer Science"))) = true ∧
    extractAuthorsFromText (str "John Smith\nDepartment of Computer Science") = [] := by
  refine ⟨by decide, by decide, by decide⟩

/-- C4 corrected: the relaxed second pass (which runs when strategy 1 found
fewer than two authors) starts from line 0 and admits three of the four
surface patterns — CamelCase, initial-dot-prefixed and honorific-prefixed —
on any line whose following line carries a department marker; the ordinary
space-separated-name pattern is not re-tried.  Each case below places the
author line at index 0, which strategy 1 never scans, so the output is
produced by the relaxed pass alone. -/
theorem strategy2_three_patterns :
    extractAuthorsFromText (str "JohnAlanSmith\nDepartment of Computer Science") =
      [str "John Alan Smith"] ∧
    extractAuthorsFromText (str "G.RishabBabu\nDepartment of Computer Science") =
      [str "G. Rishab Babu"] ∧
    extractAuthorsFromText (str "Mrs.FatimaUnnisa\nDepartment of Computer Science") =
      [str "Mrs. Fatima Unnisa"] ∧
    extractAuthorsFromText (str "John Smith\nDepartment of Computer Science") = [] := by
  refine ⟨by decide, by decide, by decide, by decide⟩

/-! ### C5: the title-word blocklist -/

/-- C5 counterexample: the relaxed second pass checks only the seven-word
sub-blocklist, so a CamelCase candidate whose reconstruction contains the
blocklisted word "Machine" is nonetheless added to the returned author
list. -/
theorem blocklist_second_pass_cex :
    str "Machine" ∈ titleWords13 ∧
    containsL (str "Machine") (str "Machine Learning Models") = true ∧
    extractAuthorsFromText (str "MachineLearningModels\nDepartment of Computer Science") =
      [str "Machine Learning Models"] := by
  refine ⟨by decide, by decide, by decide⟩

/-- C5 corrected: in the primary scan a qualifying CamelCase candidate whose
de-concatenated reconstruction contains any of the thirteen blocklist words
yields no author; the relaxed second pass rejects only on its seven-word
sub-blocklist, so the remaining six words do not protect it there (see the
counterexample). -/
theorem blocklist_rejection (line : List Char)
    (hc : camelMatch line = true) (h10 : 10 < line.length) (h60 : line.length < 60) :
    ((∃ w ∈ titleWords13, containsL w (deConcat line) = true) →
      strat1LineAuthors line = []) ∧
    ((∃ w ∈ titleWords7, containsL w (deConcat line) = true) →
      strat2LineAuthors line = []) := by
  constructor
  · rintro ⟨w, hw, hcont⟩
    unfold strat1LineAuthors
    rw [if_pos (by simp [hc, h10, h60])]
    dsimp only
    rw [if_pos (List.any_eq_true.mpr ⟨w, hw, hcont⟩)]
  · rintro ⟨w, hw, hcont⟩
    unfold strat2LineAuthors
    rw [if_pos (by simp [hc, h10, h60])]
    dsimp only
    rw [if_pos (List.any_eq_true.mpr ⟨w, hw, hcont⟩)]

/-- Witness for the corrected C5: a blocklisted CamelCase line is rejected by
each pass on its own blocklist. -/
theorem blocklist_rejection_witness :
    strat1LineAuthors (str "SmartTransitTracking") = [] ∧
    strat2LineAuthors (str "UrbanSystemsGroup") = [] :=
  ⟨(blocklist_rejection (str "SmartTransitTracking") (by decide) (by decide) (by decide)).1
      ⟨str "Smart", by decide, by decide⟩,
   (blocklist_rejection (str "UrbanSystemsGroup") (by decide) (by decide) (by decide)).2
      ⟨str "Urban", by decide, by decide⟩⟩

/-! ### C7: CamelCase de-concatenation inside the scan window -/

theorem strat1Go_sub (lines : List (List Char)) (is : List Nat) :
    ∀ acc, ∃ s, strat1Go lines is acc = acc ++ s := by
  induction is with
  | nil => exact fun acc => ⟨[], by simp [strat1Go]⟩
  | cons i rest ih =>
    intro acc
    rw [strat1Go]
    split
    · exact ⟨strat1StepAt lines i, rfl⟩
    · obtain ⟨s, hs⟩ := ih (acc ++ strat1StepAt lines i)
      exact ⟨strat1StepAt lines i ++ s, by rw [hs, List.append_assoc]⟩

theorem strat1LineAuthors_length (line : List Char) :
    (strat1LineAuthors line).length ≤ 1 := by
  unfold strat1LineAuthors
  dsimp only
  repeat' split
  all_goals simp

theorem strat1StepAt_length (lines : List (List Char)) (i : Nat) :
    (strat1StepAt lines i).length ≤ 1 := by
  unfold strat1StepAt
  dsimp only
  repeat' split
  all_goals first | exact strat1LineAuthors_length _ | simp

theorem strat1Go_length (lines : List (List Char)) (is : List Nat) :
    ∀ acc, acc.length < 10 → (strat1Go lines is acc).length ≤ 10 := by
  induction is with
  | nil => intro acc h; rw [strat1Go]; omega
  | cons i rest ih =>
    intro acc h
    rw [strat1Go]
    have hstep := strat1StepAt_length lines i
    split
    · next hge =>
      rw [List.length_append]
      omega
    · next hlt =>
      refine ih _ ?_
      rw [List.length_append] at hlt ⊢
      omega

theorem strat1Go_mem (lines : List (List Char)) (T : Nat) (nm : List Char)
    (hT : nm ∈ strat1StepAt lines T) (is' : List Nat) (is : List Nat) :
    ∀ acc, (acc ++ flatMapL (strat1StepAt lines) is).length < 10 →
      nm ∈ strat1Go lines (is ++ T :: is') acc := by
  induction is with
  | nil =>
    intro acc hlen
    rw [List.nil_append, strat1Go]
    split
    · exact List.mem_append.mpr (Or.inr hT)
    · obtain ⟨s, hs⟩ := strat1Go_sub lines is' (acc ++ strat1StepAt lines T)
      rw [hs]
      exact List.mem_append.mpr (Or.inl (List.mem_append.mpr (Or.inr hT)))
  | cons i rest ih =>
    intro acc hlen
    rw [List.cons_append, strat1Go]
    rw [flatMapL] at hlen
    split
    · next hge =>
      exfalso
      simp only [List.length_append] at hge hlen
      omega
    · refine ih (acc ++ strat1StepAt lines i) ?_
      simp only [List.length_append] at hlen ⊢
      omega

theorem cleanupGo_get (nm : List Char) (hclean : cleanCandidate nm = nm)
    (hvalid : validCandidate nm = true) (hfp : nm ∉ falsePositives)
    (l : List (List Char)) :
    ∀ (p : Nat) (cl : List (List Char)), l.get? p = some nm →
      ∃ q, q < cl.length + p + 1 ∧ (cleanupGo l cl).get? q = some nm := by
  induction l with
  | nil => intro p cl h; simp at h
  | cons a rest ih =>
    intro p cl h
    cases p with
    | zero =>
      rw [List.get?_cons_zero] at h
      injection h with heq
      rw [cleanupGo, heq, hclean]
      by_cases hmem : nm ∈ cl
      · rw [if_neg (by
          intro hcond
          have h2 := ((Bool.and_eq_true _ _).mp ((Bool.and_eq_true _ _).mp hcond).1).2
          rw [Bool.not_eq_true'] at h2
          rw [contains_iff_mem.mpr hmem] at h2
          cases h2)]
        obtain ⟨n, hn⟩ := List.mem_iff_get?.mp hmem
        have hnlt : n < cl.length := by
          by_contra hge
          rw [List.get?_eq_none.mpr (Nat.le_of_not_lt hge)] at hn
          cases hn
        obtain ⟨s, hs⟩ := cleanupGo_sub rest cl
        exact ⟨n, by omega, by rw [hs, List.get?_append hnlt]; exact hn⟩
      · rw [if_pos (by
          simp only [Bool.and_eq_true, Bool.not_eq_true']
          refine ⟨⟨hvalid, ?_⟩, ?_⟩
          · rw [← Bool.not_eq_true, contains_iff_mem]; exact hmem
          · rw [← Bool.not_eq_true, contains_iff_mem]; exact hfp)]
        obtain ⟨s, hs⟩ := cleanupGo_sub rest (cl ++ [nm])
        refine ⟨cl.length, by omega, ?_⟩
        rw [hs, List.get?_append (by simp), List.get?_concat_length]
    | succ p' =>
      rw [List.get?_cons_succ] at h
      rw [cleanupGo]
      split
      · obtain ⟨q, hq, hget⟩ := ih p' (cl ++ [cleanCandidate a]) h
        refine ⟨q, ?_, hget⟩
        simp only [List.length_append, List.length_singleton] at hq
        omega
      · obtain ⟨q, hq, hget⟩ := ih p' cl h
        exact ⟨q, by omega, hget⟩

theorem dropWhile_append_cons {p : Char → Bool} (l1 : List Char) {c : Char}
    (hc : p c = false) (l2 : List Char) :
    (l1 ++ c :: l2).dropWhile p = l1.dropWhile p ++ c :: l2 := by
  induction l1 with
  | nil => simp [List.dropWhile_cons, hc]
  | cons a as ih =>
    by_cases h : p a <;> simp [List.dropWhile_cons, h, ih]

theorem pyStrip_DCS (t : List Char) :
    pyStrip (str "Department of Computer Science" ++ t) =
      str "Department of Computer Science" ++ (t.reverse.dropWhile pyWs).reverse := by
  unfold pyStrip
  have h1 : (str "Department of Computer Science" ++ t).dropWhile pyWs =
      str "Department of Computer Science" ++ t := by
    rw [show str "Department of Computer Science" ++ t =
        'D' :: (str "epartment of Computer Science" ++ t) from rfl]
    rw [List.dropWhile_cons]
    rw [show pyWs 'D' = false from rfl]
    simp
  rw [h1, List.reverse_append]
  rw [show (str "Department of Computer Science").reverse =
      'e' :: str "cneicS retupmoC fo tnemtrapeD" from by decide]
  rw [dropWhile_append_cons _ (show pyWs 'e' = false from rfl)]
  rw [List.reverse_append]
  rw [show ('e' :: str "cneicS retupmoC fo tnemtrapeD").reverse =
      str "Department of Computer Science" from by decide]

theorem deptMarker1_of_DCS {l : List Char}
    (h : startsWithL (str "Department of Computer Science") l = true) :
    deptMarker1 (toLowerL (pyStrip l)) = true := by
  obtain ⟨t, rfl⟩ := startsWithL_iff.mp h
  rw [pyStrip_DCS]
  unfold deptMarker1 toLowerL
  rw [List.map_append]
  rw [show (str "Department of Computer Science").map Char.toLower =
      str "department of computer science" from by decide]
  have hpre : startsWithL (str "department")
      (str "department of computer science" ++
        ((t.reverse.dropWhile pyWs).reverse.map Char.toLower)) = true := by
    refine startsWithL_iff.mpr
      ⟨str " of computer science" ++ ((t.reverse.dropWhile pyWs).reverse.map Char.toLower), ?_⟩
    rw [show str "department of computer science" =
        str "department" ++ str " of computer science" from by decide, List.append_assoc]
  rw [hpre]
  rfl

theorem strat1StepAt_NAME {lines : List (List Char)} {T : Nat}
    (hline : lines.get? T = some (str "NadimpalliMadanaKailashVarma"))
    (hT1 : T + 1 < lines.length)
    (hdept : deptMarker1 (toLowerL (pyStrip (lines.getD (T + 1) []))) = true) :
    strat1StepAt lines T = [str "Nadimpalli Madana Kailash Varma"] := by
  unfold strat1StepAt
  rw [getD_of_get? hline]
  rw [show pyStrip (str "NadimpalliMadanaKailashVarma") =
      str "NadimpalliMadanaKailashVarma" from by decide]
  rw [if_neg (by decide)]
  rw [if_pos (by rw [decide_eq_true hT1, Bool.true_and]; exact hdept)]
  decide

theorem range'_split {s T n : Nat} (h1 : s ≤ T) (h2 : T < s + n) :
    List.range' s n = List.range' s (T - s) ++ T :: List.range' (T + 1) (s + n - T - 1) := by
  have e1 : T :: List.range' (T + 1) (s + n - T - 1) = List.range' T (s + n - T - 1 + 1) :=
    (List.range'_succ T (s + n - T - 1) 1).symm
  rw [e1]
  have e2 := List.range'_append_1 s (T - s) (s + n - T - 1 + 1)
  rw [show s + (T - s) = T from by omega] at e2
  rw [e2, show s + n - T - 1 + 1 + (T - s) = n from by omega]

/-- C7 corrected: if the first-page text has the line
`NadimpalliMadanaKailashVarma` at index `T` of the strategy-1 window
(`3 ≤ T < 60`) immediately followed by a line starting with
`Department of Computer Science`, **and fewer than ten author candidates were
accumulated by the scan before that line** (the loop breaks at ten), then the
returned author list contains a space-separated name with `Nadimpalli` and
`Varma` as substrings. -/
theorem camelcase_deconcat (text : List Char) (T : Nat)
    (h3 : 3 ≤ T) (h60 : T < 60)
    (hline : (splitLines text).get? T = some (str "NadimpalliMadanaKailashVarma"))
    (hnext : startsWithL (str "Department of Computer Science")
      ((splitLines text).getD (T + 1) []) = true)
    (hcap : (flatMapL (strat1StepAt (splitLines text)) (List.range' 3 (T - 3))).length < 10) :
    ∃ a ∈ extractAuthorsFromText text,
      containsL (str "Nadimpalli") a = true ∧ containsL (str "Varma") a = true := by
  have hT1 : T + 1 < (splitLines text).length := by
    by_contra hge
    have hnone : (splitLines text).get? (T + 1) = none :=
      List.get?_eq_none.mpr (Nat.le_of_not_lt hge)
    have hgetD : (splitLines text).getD (T + 1) [] = [] := by
      simp [List.getD, ← List.get?_eq_getElem?, hnone]
    rw [hgetD] at hnext
    exact absurd hnext (by decide)
  have hTlt : T < (splitLines text).length := by omega
  have hdept := deptMarker1_of_DCS hnext
  have hstep := strat1StepAt_NAME hline hT1 hdept
  have hmemT : str "Nadimpalli Madana Kailash Varma" ∈ strat1StepAt (splitLines text) T := by
    rw [hstep]; exact List.mem_singleton.mpr rfl
  have hmin : T < min (splitLines text).length 60 := Nat.lt_min.mpr ⟨hTlt, h60⟩
  have hdecomp : List.range' 3 (min (splitLines text).length 60 - 3) =
      List.range' 3 (T - 3) ++ T :: List.range' (T + 1) (min (splitLines text).length 60 - T - 1) := by
    have hd := range'_split (s := 3) (T := T) (n := min (splitLines text).length 60 - 3)
      h3 (by omega)
    rw [show 3 + (min (splitLines text).length 60 - 3) - T - 1 =
        min (splitLines text).length 60 - T - 1 from by omega] at hd
    exact hd
  have hmem_s1 : str "Nadimpalli Madana Kailash Varma" ∈ strategy1 (splitLines text) := by
    unfold strategy1
    rw [hdecomp]
    exact strat1Go_mem (splitLines text) T _ hmemT _ _ [] (by simpa using hcap)
  have hlen_s1 : (strategy1 (splitLines text)).length ≤ 10 :=
    strat1Go_length _ _ [] (by simp)
  obtain ⟨p, hp⟩ := List.mem_iff_get?.mp hmem_s1
  have hplt : p < (strategy1 (splitLines text)).length := by
    by_contra hge
    rw [List.get?_eq_none.mpr (Nat.le_of_not_lt hge)] at hp
    cases hp
  have hp10 : p < 10 := by omega
  have hall : ∃ all, (if (strategy1 (splitLines text)).length < 2 then
        strategy1 (splitLines text) ++ strategy2 (splitLines text)
      else strategy1 (splitLines text)) = all ∧ all.get? p = some (str "Nadimpalli Madana Kailash Varma") := by
    split
    · exact ⟨_, rfl, by rw [List.get?_append hplt]; exact hp⟩
    · exact ⟨_, rfl, hp⟩
  obtain ⟨all, hall_eq, hall_get⟩ := hall
  have htake15 : (all.take 15).get? p = some (str "Nadimpalli Madana Kailash Varma") := by
    rw [List.get?_take (by omega)]
    exact hall_get
  obtain ⟨q, hq, hget⟩ := cleanupGo_get (str "Nadimpalli Madana Kailash Varma")
    (by decide) (by decide) (by decide) (all.take 15) p [] htake15
  have hq10 : q < 10 := by
    simp only [List.length_nil] at hq
    omega
  have hfinal : (cleanupAuthors all).get? q = some (str "Nadimpalli Madana Kailash Varma") := by
    unfold cleanupAuthors
    rw [List.get?_take hq10]
    exact hget
  have htext : text.isEmpty = false := by
    cases text with
    | nil =>
      rw [show splitLines ([] : List Char) = [[]] from by decide] at hline
      rw [List.get?_eq_none.mpr (by simp; omega)] at hline
      cases hline
    | cons c cs => rfl
  refine ⟨str "Nadimpalli Madana Kailash Varma", ?_, by decide, by decide⟩
  rw [show extractAuthorsFromText text = if text.isEmpty then [] else
      extractAuthorsFromLines (splitLines text) from rfl, htext]
  simp only [if_false, Bool.false_eq_true]
  rw [show extractAuthorsFromLines (splitLines text) =
      cleanupAuthors (if (strategy1 (splitLines text)).length < 2 then
        strategy1 (splitLines text) ++ strategy2 (splitLines text)
      else strategy1 (splitLines text)) from rfl, hall_eq]
  exact List.get?_mem hfinal

/-- Witness for the corrected C7, with the name at window index 3 and nothing
accumulated before it. -/
theorem camelcase_deconcat_witness :
    ∃ a ∈ extractAuthorsFromText
        (str "x\ny\nz\nNadimpalliMadanaKailashVarma\nDepartment of Computer Science"),
      containsL (str "Nadimpalli") a = true ∧ containsL (str "Varma") a = true :=
  camelcase_deconcat
    (str "x\ny\nz\nNadimpalliMadanaKailashVarma\nDepartment of Computer Science") 3
    (by decide) (by decide) (by decide) (by decide) (by decide)

/-- The first-page text of the C7 counterexample: ten ordinary author/
department pairs occupy the scan before the CamelCase line at index 23. -/
def capCexText : List Char :=
  str ("x\nx\nx\nAaa Baa\nDepartment of Aaa\nAab Bab\nDepartment of Aab\nAac Bac\n" ++
    "Department of Aac\nAad Bad\nDepartment of Aad\nAae Bae\nDepartment of Aae\n" ++
    "Aaf Baf\nDepartment of Aaf\nAag Bag\nDepartment of Aag\nAah Bah\n" ++
    "Department of Aah\nAai Bai\nDepartment of Aai\nAaj Baj\nDepartment of Aaj\n" ++
    "NadimpalliMadanaKailashVarma\nDepartment of Computer Science")

/-- C7 counterexample: the text satisfies the claim's antecedent — the
CamelCase line sits at index 23 of the scan window, immediately followed by a
`Department of Computer Science` line — yet, because ten authors accumulate
before it and the scan stops at ten, no returned author contains
`Nadimpalli`. -/
theorem camelcase_cap_cex :
    (splitLines capCexText).get? 23 = some (str "NadimpalliMadanaKailashVarma") ∧
    startsWithL (str "Department of Computer Science")
      ((splitLines capCexText).getD 24 []) = true ∧
    (∀ a ∈ extractAuthorsFromText capCexText, containsL (str "Nadimpalli") a = false) := by
  refine ⟨by decide, by decide, by decide⟩

end PdfMeta
